import Mathlib

/-!
Shallow embedding of the dividend-history metrics core (`analyzer.py`).

Modelling conventions:
* pandas datetimes are epoch-millisecond integers (`Int`); `timedelta(days=n)`
  is `n * msPerDay` milliseconds.
* Python floats are modelled as rationals (`ℚ`); the claims under study do not
  hinge on binary floating-point rounding.
* A raw price bar is `{t: epoch-ms, c: close}`; a raw dividend record carries an
  ISO calendar-date string, modelled by its calendar day number, so that
  `pd.to_datetime` on it yields the midnight timestamp `day * msPerDay`.
* `datetime.now()` in `get_dividend_frequency` is passed explicitly as `now`.
* `strftime("%Y-%m-%d")` projects a timestamp to its calendar day, i.e. floor
  division by `msPerDay`.
* Python `round(x, 2)` is modelled as rounding `100 * x` to an integer; the
  tie-breaking mode is irrelevant to every property studied here.
-/

namespace DividendHistory

/-- Milliseconds per day: `timedelta(days=1)` in milliseconds. -/
def msPerDay : Int := 86400000

/-- Raw price bar record `{t: epoch-millisecond timestamp, c: close price}`. -/
structure RawPrice where
  t : Int
  c : ℚ
deriving Repr, DecidableEq

/-- Raw dividend record `{ex_dividend_date: ISO date string, cash_amount}`;
the ISO date string is modelled by the calendar day number it denotes. -/
structure RawDividend where
  ex_dividend_date : Int
  cash_amount : ℚ
deriving Repr, DecidableEq

/-- A row of `prices_df` after `_prepare_data`: a `date` column (datetime, as
epoch ms) and the close price column `c`. -/
structure PriceBar where
  date : Int
  c : ℚ
deriving Repr, DecidableEq

/-- A row of `dividends_df` after `_prepare_data`. -/
structure DivEvent where
  date : Int
  cash_amount : ℚ
deriving Repr, DecidableEq

/-- The `DividendAnalyzer` state after `_prepare_data`: the two dataframes. -/
structure DividendAnalyzer where
  prices_df : List PriceBar
  dividends_df : List DivEvent
deriving Repr, DecidableEq

/-- Ordering of price rows by the `date` column. -/
def priceLE (p q : PriceBar) : Prop := p.date ≤ q.date

/-- Ordering of dividend rows by the `date` column. -/
def divLE (p q : DivEvent) : Prop := p.date ≤ q.date

instance : DecidableRel priceLE := fun p q => inferInstanceAs (Decidable (p.date ≤ q.date))

instance : DecidableRel divLE := fun p q => inferInstanceAs (Decidable (p.date ≤ q.date))

instance : IsTotal PriceBar priceLE := ⟨fun p q => Int.le_total p.date q.date⟩

instance : IsTrans PriceBar priceLE := ⟨fun _ _ _ => Int.le_trans⟩

instance : IsTotal DivEvent divLE := ⟨fun p q => Int.le_total p.date q.date⟩

instance : IsTrans DivEvent divLE := ⟨fun _ _ _ => Int.le_trans⟩

/-- `_prepare_data`: builds `prices_df` (date column from `t` via
`pd.to_datetime(..., unit='ms')`, which keeps the full timestamp) and
`dividends_df` (date column from the ISO date string, a midnight timestamp),
each sorted ascending by date.  An empty raw collection yields an empty
dataframe, which map/sort also give on `[]`. -/
def _prepare_data (prices : List RawPrice) (dividends : List RawDividend) : DividendAnalyzer where
  prices_df :=
    List.insertionSort priceLE (prices.map fun r => { date := r.t, c := r.c })
  dividends_df :=
    List.insertionSort divLE
      (dividends.map fun r => { date := r.ex_dividend_date * msPerDay, cash_amount := r.cash_amount })

/-- `get_price_at_date`: close price at or before `target_date`, `None` if
unavailable. -/
def get_price_at_date (a : DividendAnalyzer) (target_date : Int) : Option ℚ :=
  if a.prices_df.isEmpty then none
  else
    let valid_prices := a.prices_df.filter fun p => decide (p.date ≤ target_date)
    if valid_prices.isEmpty then none
    else valid_prices.getLast?.map fun p => p.c

/-- `get_dividends_in_period`: total dividends with date in
`[start_date, end_date]` (inclusive both ends). -/
def get_dividends_in_period (a : DividendAnalyzer) (start_date end_date : Int) : ℚ :=
  if a.dividends_df.isEmpty then 0
  else
    let period_divs :=
      a.dividends_df.filter fun d => decide (start_date ≤ d.date ∧ d.date ≤ end_date)
    if period_divs.isEmpty then 0
    else (period_divs.map fun d => d.cash_amount).sum

/-- pandas column `.max()` on a nonempty column (the `0` default is only
reached on an empty column, which every caller guards against). -/
def colMax : List Int → Int
  | [] => 0
  | x :: xs => xs.foldl max x

/-- pandas column `.min()` on a nonempty column. -/
def colMin : List Int → Int
  | [] => 0
  | x :: xs => xs.foldl min x

/-- `strftime("%Y-%m-%d")`: the calendar day of a timestamp, i.e. floor
division of the epoch-ms value by `msPerDay`. -/
def strftimeDay (t : Int) : Int := Int.fdiv t msPerDay

/-- Python `round(x, 2)`. -/
def round2 (x : ℚ) : ℚ := (round (x * 100) : ℚ) / 100

/-- The metrics dictionary returned by `calculate_metrics`; `None`-able entries
are `Option`s, and the two date entries hold the formatted calendar day. -/
structure MetricsRecord where
  period_months : Int
  start_date : Option Int
  end_date : Option Int
  start_price : Option ℚ
  end_price : Option ℚ
  price_change : Option ℚ
  price_change_pct : Option ℚ
  total_dividends : Option ℚ
  dividend_yield_pct : Option ℚ
  total_return : Option ℚ
  total_return_pct : Option ℚ
  profitable_price : Option Bool
  profitable_total : Option Bool
deriving Repr, DecidableEq

/-- `calculate_metrics(months)`. -/
def calculate_metrics (a : DividendAnalyzer) (months : Int) : MetricsRecord :=
  if a.prices_df.isEmpty then
    { period_months := months, start_date := none, end_date := none,
      start_price := none, end_price := none, price_change := none,
      price_change_pct := none, total_dividends := none,
      dividend_yield_pct := none, total_return := none,
      total_return_pct := none, profitable_price := none,
      profitable_total := none }
  else
    let end_date := colMax (a.prices_df.map fun p => p.date)
    let target_start_date := end_date - months * 30 * msPerDay
    let actual_start_date := colMin (a.prices_df.map fun p => p.date)
    let start_date := max target_start_date actual_start_date
    let start_price := get_price_at_date a start_date
    let end_price := get_price_at_date a end_date
    match start_price, end_price with
    | some sp, some ep =>
      let price_change := ep - sp
      let price_change_pct := price_change / sp * 100
      let total_dividends := get_dividends_in_period a start_date end_date
      let dividend_yield_pct := total_dividends / sp * 100
      let total_return := price_change + total_dividends
      let total_return_pct := total_return / sp * 100
      { period_months := months,
        start_date := some (strftimeDay start_date),
        end_date := some (strftimeDay end_date),
        start_price := some (round2 sp),
        end_price := some (round2 ep),
        price_change := some (round2 price_change),
        price_change_pct := some (round2 price_change_pct),
        total_dividends := some (round2 total_dividends),
        dividend_yield_pct := some (round2 dividend_yield_pct),
        total_return := some (round2 total_return),
        total_return_pct := some (round2 total_return_pct),
        profitable_price := some (decide (price_change > 0)),
        profitable_total := some (decide (total_return > 0)) }
    | sp, ep =>
      { period_months := months,
        start_date := some (strftimeDay start_date),
        end_date := some (strftimeDay end_date),
        start_price := sp, end_price := ep, price_change := none,
        price_change_pct := none, total_dividends := none,
        dividend_yield_pct := none, total_return := none,
        total_return_pct := none, profitable_price := none,
        profitable_total := none }

/-- `get_price_history(months)`: `(formatted date, close)` pairs for bars with
date at or after the unclamped target start. -/
def get_price_history (a : DividendAnalyzer) (months : Int) : List (Int × ℚ) :=
  if a.prices_df.isEmpty then []
  else
    let end_date := colMax (a.prices_df.map fun p => p.date)
    let start_date := end_date - months * 30 * msPerDay
    let period_prices := a.prices_df.filter fun p => decide (start_date ≤ p.date)
    period_prices.map fun p => (strftimeDay p.date, p.c)

/-- `get_dividend_frequency()`; the wall clock read `datetime.now()` is the
explicit argument `now`.  `(dates[i+1] - dates[i]).days` is the floor of the
timedelta in days, i.e. `Int.fdiv` by `msPerDay`. -/
def get_dividend_frequency (a : DividendAnalyzer) (now : Int) : String :=
  if a.dividends_df.isEmpty ∨ a.dividends_df.length < 2 then ""
  else
    let start_date := now - 365 * msPerDay
    let recent_divs := a.dividends_df.filter fun d => decide (start_date ≤ d.date)
    if recent_divs.length < 2 then ""
    else
      let dates := List.insertionSort (· ≤ ·) (recent_divs.map fun d => d.date)
      let intervals := (dates.zip dates.tail).map fun p => Int.fdiv (p.2 - p.1) msPerDay
      if intervals.isEmpty then ""
      else
        let avg_interval : ℚ := (intervals.sum : ℚ) / (intervals.length : ℚ)
        if avg_interval ≤ 10 then "W"
        else if avg_interval ≤ 35 then "M"
        else if avg_interval ≤ 110 then "Q"
        else ""

/-- Frequency classification written from the specification text (§4.4), to be
compared with the source function: restrict to events in the trailing 365 days
of the analysis time, return UNKNOWN below 2 events, else classify the mean of
the day-gaps of the sorted event dates by inclusive thresholds 10/35/110. -/
def classify_frequency_spec (events : List Int) (now : Int) : String :=
  let recent := events.filter fun d => decide (now - 365 * msPerDay ≤ d)
  if recent.length < 2 then ""
  else
    let sortedDates := List.insertionSort (· ≤ ·) recent
    let gaps := (sortedDates.zip sortedDates.tail).map fun p => Int.fdiv (p.2 - p.1) msPerDay
    let m : ℚ := (gaps.sum : ℚ) / (gaps.length : ℚ)
    if m ≤ 10 then "W"
    else if m ≤ 35 then "M"
    else if m ≤ 110 then "Q"
    else ""

/-- "Disjoint adjacent sub-ranges that together cover `[s, e]`": the first
range starts at `s`, each range ends where the next begins minus one, ranges
never overshoot `e`, and the last ends at `e`. -/
def coversRange : Int → Int → List (Int × Int) → Prop
  | _, _, [] => False
  | s, e, [r] => r.1 = s ∧ r.2 = e
  | s, e, r :: r2 :: rest => r.1 = s ∧ s - 1 ≤ r.2 ∧ r.2 ≤ e ∧ coversRange (r.2 + 1) e (r2 :: rest)

lemma le_foldl_max (l : List Int) : ∀ a x : Int, (x = a ∨ x ∈ l) → x ≤ l.foldl max a := by
  induction l with
  | nil =>
    intro a x h
    rcases h with rfl | h
    · exact le_rfl
    · cases h
  | cons b t ih =>
    intro a x h
    simp only [List.foldl_cons]
    rcases h with rfl | h
    · exact le_trans (le_max_left x b) (ih (max x b) (max x b) (Or.inl rfl))
    · rcases List.mem_cons.mp h with rfl | h
      · exact le_trans (le_max_right a x) (ih (max a x) (max a x) (Or.inl rfl))
      · exact ih (max a b) x (Or.inr h)

lemma foldl_max_choice (l : List Int) : ∀ a : Int, l.foldl max a = a ∨ l.foldl max a ∈ l := by
  induction l with
  | nil => intro a; exact Or.inl rfl
  | cons b t ih =>
    intro a
    simp only [List.foldl_cons]
    rcases ih (max a b) with h | h
    · rcases max_choice a b with hc | hc
      · exact Or.inl (h.trans hc)
      · refine Or.inr ?_
        rw [h, hc]
        exact List.mem_cons_self b t
    · exact Or.inr (List.mem_cons_of_mem b h)

lemma foldl_min_le (l : List Int) : ∀ a x : Int, (x = a ∨ x ∈ l) → l.foldl min a ≤ x := by
  induction l with
  | nil =>
    intro a x h
    rcases h with rfl | h
    · exact le_rfl
    · cases h
  | cons b t ih =>
    intro a x h
    simp only [List.foldl_cons]
    rcases h with rfl | h
    · exact le_trans (ih (min x b) (min x b) (Or.inl rfl)) (min_le_left x b)
    · rcases List.mem_cons.mp h with rfl | h
      · exact le_trans (ih (min a x) (min a x) (Or.inl rfl)) (min_le_right a x)
      · exact ih (min a b) x (Or.inr h)

lemma foldl_min_choice (l : List Int) : ∀ a : Int, l.foldl min a = a ∨ l.foldl min a ∈ l := by
  induction l with
  | nil => intro a; exact Or.inl rfl
  | cons b t ih =>
    intro a
    simp only [List.foldl_cons]
    rcases ih (min a b) with h | h
    · rcases min_choice a b with hc | hc
      · exact Or.inl (h.trans hc)
      · refine Or.inr ?_
        rw [h, hc]
        exact List.mem_cons_self b t
    · exact Or.inr (List.mem_cons_of_mem b h)

lemma le_colMax {l : List Int} {x : Int} (hx : x ∈ l) : x ≤ colMax l := by
  cases l with
  | nil => cases hx
  | cons b t =>
    rcases List.mem_cons.mp hx with rfl | h
    · exact le_foldl_max t x x (Or.inl rfl)
    · exact le_foldl_max t b x (Or.inr h)

lemma colMax_mem {l : List Int} (h : l ≠ []) : colMax l ∈ l := by
  cases l with
  | nil => exact absurd rfl h
  | cons b t =>
    show t.foldl max b ∈ b :: t
    rcases foldl_max_choice t b with hc | hc
    · rw [hc]; exact List.mem_cons_self b t
    · exact List.mem_cons_of_mem b hc

lemma colMin_le {l : List Int} {x : Int} (hx : x ∈ l) : colMin l ≤ x := by
  cases l with
  | nil => cases hx
  | cons b t =>
    rcases List.mem_cons.mp hx with rfl | h
    · exact foldl_min_le t x x (Or.inl rfl)
    · exact foldl_min_le t b x (Or.inr h)

lemma colMin_mem {l : List Int} (h : l ≠ []) : colMin l ∈ l := by
  cases l with
  | nil => exact absurd rfl h
  | cons b t =>
    show t.foldl min b ∈ b :: t
    rcases foldl_min_choice t b with hc | hc
    · rw [hc]; exact List.mem_cons_self b t
    · exact List.mem_cons_of_mem b hc

lemma prepare_prices_sorted (ps : List RawPrice) (ds : List RawDividend) :
    List.Sorted priceLE (_prepare_data ps ds).prices_df :=
  List.sorted_insertionSort priceLE _

lemma prepare_dividends_sorted (ps : List RawPrice) (ds : List RawDividend) :
    List.Sorted divLE (_prepare_data ps ds).dividends_df :=
  List.sorted_insertionSort divLE _

lemma get_price_at_date_eq_none_iff (a : DividendAnalyzer) (d : Int) :
    get_price_at_date a d = none ↔ ∀ p ∈ a.prices_df, d < p.date := by
  simp only [get_price_at_date, List.isEmpty_iff]
  split_ifs with h1 h2
  · simp [h1]
  · simp only [List.filter_eq_nil_iff] at h2
    constructor
    · intro _ p hp
      have := h2 p hp
      simp only [decide_eq_true_eq] at this
      omega
    · intro _; rfl
  · constructor
    · intro hnone
      exfalso
      rcases Option.isSome_iff_exists.mp (List.getLast?_isSome.mpr h2) with ⟨p, hp⟩
      rw [hp] at hnone
      simp at hnone
    · intro hall
      exfalso
      rcases List.exists_mem_of_ne_nil _ h2 with ⟨p, hp⟩
      have hmem := List.mem_filter.mp hp
      have hlt := hall p hmem.1
      have hle : p.date ≤ d := by simpa using hmem.2
      omega

lemma get_price_at_date_isSome_of_exists {a : DividendAnalyzer} {d : Int}
    (h : ∃ p ∈ a.prices_df, p.date ≤ d) : ∃ c, get_price_at_date a d = some c := by
  cases hres : get_price_at_date a d with
  | some c => exact ⟨c, rfl⟩
  | none =>
    rw [get_price_at_date_eq_none_iff] at hres
    rcases h with ⟨p, hp, hpd⟩
    exact absurd hpd (not_le.mpr (hres p hp))

lemma sorted_rel_getLast :
    ∀ {l : List PriceBar}, List.Sorted priceLE l →
      ∀ {x}, x ∈ l → ∀ {y}, l.getLast? = some y → priceLE x y := by
  intro l
  induction l with
  | nil => intro _ x hx; cases hx
  | cons b t ih =>
    intro hs x hx y hy
    cases t with
    | nil =>
      have hyb : y = b := by simpa using hy.symm
      have hxb : x = b := by simpa using hx
      subst hyb
      subst hxb
      exact le_refl x.date
    | cons b2 t2 =>
      rw [List.getLast?_cons_cons] at hy
      have hs2 := List.sorted_cons.mp hs
      rcases List.mem_cons.mp hx with rfl | hx2
      · exact hs2.1 y (List.mem_of_getLast?_eq_some hy)
      · exact ih hs2.2 hx2 hy

/-- C2: `get_price_at_date` is the as-of lookup: it returns the close of the
latest bar with date ≤ the target; it returns `None` exactly when the series is
empty or every bar is after the target; on a non-empty series a query at or
after the maximum date returns the last bar's close, and a query before the
minimum date returns `None`. -/
theorem C2_price_at_or_before (a : DividendAnalyzer)
    (hs : List.Sorted priceLE a.prices_df) (d : Int) :
    (get_price_at_date a d = none ↔
      (a.prices_df = [] ∨ ∀ p ∈ a.prices_df, d < p.date))
    ∧ (∀ c, get_price_at_date a d = some c →
        ∃ p ∈ a.prices_df, p.c = c ∧ p.date ≤ d ∧
          ∀ q ∈ a.prices_df, q.date ≤ d → q.date ≤ p.date)
    ∧ (∀ h2 : a.prices_df ≠ [],
        colMax (a.prices_df.map fun p => p.date) ≤ d →
          get_price_at_date a d = some (a.prices_df.getLast h2).c)
    ∧ (a.prices_df ≠ [] →
        d < colMin (a.prices_df.map fun p => p.date) →
          get_price_at_date a d = none) := by
  refine ⟨?_, ?_, ?_, ?_⟩
  · rw [get_price_at_date_eq_none_iff]
    constructor
    · intro h; exact Or.inr h
    · rintro (h | h)
      · intro p hp; rw [h] at hp; cases hp
      · exact h
  · intro c hc
    simp only [get_price_at_date, List.isEmpty_iff] at hc
    split_ifs at hc with h1 h2
    rcases Option.map_eq_some'.mp hc with ⟨pl, hpl, hplc⟩
    have hplf := List.mem_of_getLast?_eq_some hpl
    have hmem := List.mem_filter.mp hplf
    refine ⟨pl, hmem.1, hplc, by simpa using hmem.2, ?_⟩
    intro q hq hqd
    have hqf : q ∈ a.prices_df.filter fun p => decide (p.date ≤ d) :=
      List.mem_filter.mpr ⟨hq, by simpa using hqd⟩
    exact sorted_rel_getLast (hs.filter _) hqf hpl
  · intro h2 hmax
    have hall : ∀ p ∈ a.prices_df, p.date ≤ d := by
      intro p hp
      exact le_trans (le_colMax (List.mem_map_of_mem (fun q => q.date) hp)) hmax
    have hfe : a.prices_df.filter (fun p => decide (p.date ≤ d)) = a.prices_df := by
      rw [List.filter_eq_self]
      intro p hp
      simpa using hall p hp
    simp only [get_price_at_date, List.isEmpty_iff]
    rw [if_neg h2]
    rw [hfe, if_neg h2, List.getLast?_eq_getLast _ h2]
    rfl
  · intro h2 hmin
    rw [get_price_at_date_eq_none_iff]
    intro p hp
    exact lt_of_lt_of_le hmin (colMin_le (List.mem_map_of_mem (fun q => q.date) hp))

/-- Witness for C2 at a concrete two-bar series. -/
theorem C2_price_at_or_before_witness :
    get_price_at_date
      (_prepare_data [⟨20 * msPerDay, 100⟩, ⟨200 * msPerDay, 110⟩] []) (10 * msPerDay) = none :=
  (C2_price_at_or_before _ (prepare_prices_sorted _ _) (10 * msPerDay)).1.mpr
    (Or.inr (by decide))

/-- The window end resolved by `calculate_metrics`: the latest date present in
the price series (`self.prices_df['date'].max()`). -/
def resolved_end_date (a : DividendAnalyzer) : Int :=
  colMax (a.prices_df.map fun p => p.date)

/-- `target_start_date = end_date - timedelta(days=months * 30)`. -/
def resolved_target_start (a : DividendAnalyzer) (months : Int) : Int :=
  resolved_end_date a - months * 30 * msPerDay

/-- `start_date = max(target_start_date, actual_start_date)`. -/
def resolved_start_date (a : DividendAnalyzer) (months : Int) : Int :=
  max (resolved_target_start a months) (colMin (a.prices_df.map fun p => p.date))

/-- All thirteen entries of the record are populated. -/
def fullyPopulated (r : MetricsRecord) : Prop :=
  r.start_date.isSome ∧ r.end_date.isSome ∧ r.start_price.isSome ∧
  r.end_price.isSome ∧ r.price_change.isSome ∧ r.price_change_pct.isSome ∧
  r.total_dividends.isSome ∧ r.dividend_yield_pct.isSome ∧
  r.total_return.isSome ∧ r.total_return_pct.isSome ∧
  r.profitable_price.isSome ∧ r.profitable_total.isSome

/-- Every financial (price-derived) entry of the record is absent. -/
def allFinancialAbsent (r : MetricsRecord) : Prop :=
  r.start_price = none ∧ r.end_price = none ∧ r.price_change = none ∧
  r.price_change_pct = none ∧ r.total_dividends = none ∧
  r.dividend_yield_pct = none ∧ r.total_return = none ∧
  r.total_return_pct = none ∧ r.profitable_price = none ∧
  r.profitable_total = none

lemma exists_max_bar {a : DividendAnalyzer} (h : a.prices_df ≠ []) :
    ∃ p ∈ a.prices_df, p.date = resolved_end_date a :=
  List.mem_map.mp (colMax_mem (List.map_eq_nil_iff.not.mpr h))

lemma exists_min_bar {a : DividendAnalyzer} (h : a.prices_df ≠ []) :
    ∃ p ∈ a.prices_df, p.date = colMin (a.prices_df.map fun p => p.date) :=
  List.mem_map.mp (colMin_mem (List.map_eq_nil_iff.not.mpr h))

lemma end_price_some {a : DividendAnalyzer} (h : a.prices_df ≠ []) :
    ∃ ep, get_price_at_date a (resolved_end_date a) = some ep := by
  rcases exists_max_bar h with ⟨p, hp, hpd⟩
  exact get_price_at_date_isSome_of_exists ⟨p, hp, le_of_eq hpd⟩

lemma start_price_some {a : DividendAnalyzer} (h : a.prices_df ≠ []) (months : Int) :
    ∃ sp, get_price_at_date a (resolved_start_date a months) = some sp := by
  rcases exists_min_bar h with ⟨p, hp, hpd⟩
  refine get_price_at_date_isSome_of_exists ⟨p, hp, ?_⟩
  rw [hpd]
  exact le_max_right _ _

lemma calculate_metrics_full (a : DividendAnalyzer) (months : Int)
    (h : a.prices_df ≠ []) (sp ep : ℚ)
    (hsp : get_price_at_date a (resolved_start_date a months) = some sp)
    (hep : get_price_at_date a (resolved_end_date a) = some ep) :
    calculate_metrics a months =
      { period_months := months,
        start_date := some (strftimeDay (resolved_start_date a months)),
        end_date := some (strftimeDay (resolved_end_date a)),
        start_price := some (round2 sp),
        end_price := some (round2 ep),
        price_change := some (round2 (ep - sp)),
        price_change_pct := some (round2 ((ep - sp) / sp * 100)),
        total_dividends := some (round2
          (get_dividends_in_period a (resolved_start_date a months) (resolved_end_date a))),
        dividend_yield_pct := some (round2
          (get_dividends_in_period a (resolved_start_date a months) (resolved_end_date a) / sp * 100)),
        total_return := some (round2
          (ep - sp + get_dividends_in_period a (resolved_start_date a months) (resolved_end_date a))),
        total_return_pct := some (round2
          ((ep - sp + get_dividends_in_period a (resolved_start_date a months) (resolved_end_date a))
            / sp * 100)),
        profitable_price := some (decide (ep - sp > 0)),
        profitable_total := some (decide
          (ep - sp + get_dividends_in_period a (resolved_start_date a months) (resolved_end_date a)
            > 0)) } := by
  have hsp2 := hsp
  have hep2 := hep
  simp only [resolved_start_date, resolved_target_start, resolved_end_date] at hsp2 hep2
  simp only [calculate_metrics, List.isEmpty_iff, if_neg h, hsp2, hep2,
    resolved_start_date, resolved_target_start, resolved_end_date]

/-- C1: on a non-empty price series, `calculate_metrics` resolves the window as
`end_date` = latest price date, `target_start_date = end_date - months*30 days`,
`start_date = max(target_start_date, earliest price date)`; whenever the
requested window reaches before the earliest price date the reported
`start_date` is the earliest available date. -/
theorem C1_window_resolution (a : DividendAnalyzer) (months : Int)
    (h : a.prices_df ≠ []) :
    (resolved_end_date a ∈ a.prices_df.map fun p => p.date)
    ∧ (∀ t ∈ a.prices_df.map fun p => p.date, t ≤ resolved_end_date a)
    ∧ (colMin (a.prices_df.map fun p => p.date) ∈ a.prices_df.map fun p => p.date)
    ∧ (∀ t ∈ a.prices_df.map fun p => p.date,
        colMin (a.prices_df.map fun p => p.date) ≤ t)
    ∧ (calculate_metrics a months).end_date = some (strftimeDay (resolved_end_date a))
    ∧ (calculate_metrics a months).start_date =
        some (strftimeDay (resolved_start_date a months))
    ∧ (resolved_target_start a months ≤ colMin (a.prices_df.map fun p => p.date) →
        (calculate_metrics a months).start_date =
          some (strftimeDay (colMin (a.prices_df.map fun p => p.date)))) := by
  obtain ⟨sp, hsp⟩ := start_price_some h months
  obtain ⟨ep, hep⟩ := end_price_some h
  have hne : (a.prices_df.map fun p => p.date) ≠ [] := List.map_eq_nil_iff.not.mpr h
  refine ⟨colMax_mem hne, fun t ht => le_colMax ht, colMin_mem hne,
    fun t ht => colMin_le ht, ?_, ?_, ?_⟩
  · rw [calculate_metrics_full a months h sp ep hsp hep]
  · rw [calculate_metrics_full a months h sp ep hsp hep]
  · intro hcl
    rw [calculate_metrics_full a months h sp ep hsp hep]
    simp only [resolved_start_date, max_eq_right hcl]

/-- Witness for C1: a two-bar series with 180 days of data and a 12-month
request clamps the reported start to the earliest date. -/
theorem C1_window_resolution_witness :
    (calculate_metrics (_prepare_data [⟨20 * msPerDay, 100⟩, ⟨200 * msPerDay, 110⟩] []) 12).start_date
      = some (strftimeDay (colMin
          ((_prepare_data [⟨20 * msPerDay, 100⟩, ⟨200 * msPerDay, 110⟩] []).prices_df.map
            fun p => p.date))) :=
  (C1_window_resolution (_prepare_data [⟨20 * msPerDay, 100⟩, ⟨200 * msPerDay, 110⟩] []) 12
    (by decide)).2.2.2.2.2.2 (by decide)

/-- C6: on an empty price series `calculate_metrics` returns, for every
requested window length, the record with every date, price and derived field
absent and `period_months` set to the requested value. -/
theorem C6_empty_price_series (a : DividendAnalyzer) (months : Int)
    (h : a.prices_df = []) :
    calculate_metrics a months =
      { period_months := months, start_date := none, end_date := none,
        start_price := none, end_price := none, price_change := none,
        price_change_pct := none, total_dividends := none,
        dividend_yield_pct := none, total_return := none,
        total_return_pct := none, profitable_price := none,
        profitable_total := none } := by
  obtain ⟨ps, ds⟩ := a
  have h2 : ps = [] := h
  subst h2
  rfl

/-- Witness for C6 on a concrete empty-price analyzer. -/
theorem C6_empty_price_series_witness :
    (calculate_metrics ⟨[], [⟨5, 2⟩]⟩ 6).start_date = none := by
  rw [C6_empty_price_series ⟨[], [⟨5, 2⟩]⟩ 6 rfl]

/-- C10: on a non-empty price series the absent-price early return of
`calculate_metrics` is unreachable: both point lookups at the resolved start
and end dates succeed, and the returned record is fully populated. -/
theorem C10_absent_branch_unreachable (a : DividendAnalyzer) (months : Int)
    (h : a.prices_df ≠ []) :
    (get_price_at_date a (resolved_start_date a months)).isSome
    ∧ (get_price_at_date a (resolved_end_date a)).isSome
    ∧ fullyPopulated (calculate_metrics a months) := by
  obtain ⟨sp, hsp⟩ := start_price_some h months
  obtain ⟨ep, hep⟩ := end_price_some h
  refine ⟨by rw [hsp]; rfl, by rw [hep]; rfl, ?_⟩
  rw [calculate_metrics_full a months h sp ep hsp hep]
  exact ⟨rfl, rfl, rfl, rfl, rfl, rfl, rfl, rfl, rfl, rfl, rfl, rfl⟩

/-- Witness for C10 at a concrete two-bar series. -/
theorem C10_absent_branch_unreachable_witness :
    (get_price_at_date (_prepare_data [⟨20 * msPerDay, 100⟩, ⟨200 * msPerDay, 110⟩] [])
      (resolved_start_date (_prepare_data [⟨20 * msPerDay, 100⟩, ⟨200 * msPerDay, 110⟩] []) 6)).isSome :=
  (C10_absent_branch_unreachable
    (_prepare_data [⟨20 * msPerDay, 100⟩, ⟨200 * msPerDay, 110⟩] []) 6 (by decide)).1

/-- C4: every record `calculate_metrics` returns is all-or-nothing: either all
thirteen entries are populated or every financial field is absent; partial
records never occur. -/
theorem C4_all_or_nothing (a : DividendAnalyzer) (months : Int) :
    fullyPopulated (calculate_metrics a months)
    ∨ allFinancialAbsent (calculate_metrics a months) := by
  by_cases h : a.prices_df = []
  · right
    obtain ⟨ps, ds⟩ := a
    have h2 : ps = [] := h
    subst h2
    exact ⟨rfl, rfl, rfl, rfl, rfl, rfl, rfl, rfl, rfl, rfl⟩
  · left
    obtain ⟨sp, hsp⟩ := start_price_some h months
    obtain ⟨ep, hep⟩ := end_price_some h
    rw [calculate_metrics_full a months h sp ep hsp hep]
    exact ⟨rfl, rfl, rfl, rfl, rfl, rfl, rfl, rfl, rfl, rfl, rfl, rfl⟩

lemma dividends_filter_sum (a : DividendAnalyzer) (s e : Int) :
    get_dividends_in_period a s e =
      ((a.dividends_df.filter fun d => decide (s ≤ d.date ∧ d.date ≤ e)).map
        fun d => d.cash_amount).sum := by
  simp only [get_dividends_in_period, List.isEmpty_iff]
  split_ifs with h1 h2
  · rw [h1]
    rfl
  · rw [h2]
    rfl
  · rfl

/-- C5: `get_dividends_in_period` sums the cash amounts of exactly the events
with date in the inclusive range; it returns zero (not absent) on an empty
dividend series; and with an empty dividend series but non-empty prices,
`calculate_metrics` reports `total_dividends = 0` and
`dividend_yield_pct = 0` with the record otherwise fully populated. -/
theorem C5_dividends_in_range :
    (∀ (a : DividendAnalyzer) (s e : Int),
      get_dividends_in_period a s e =
        ((a.dividends_df.filter fun d => decide (s ≤ d.date ∧ d.date ≤ e)).map
          fun d => d.cash_amount).sum)
    ∧ (∀ (a : DividendAnalyzer) (s e : Int), a.dividends_df = [] →
        get_dividends_in_period a s e = 0)
    ∧ (∀ (a : DividendAnalyzer) (months : Int), a.dividends_df = [] →
        a.prices_df ≠ [] →
          (calculate_metrics a months).total_dividends = some 0
          ∧ (calculate_metrics a months).dividend_yield_pct = some 0
          ∧ fullyPopulated (calculate_metrics a months)) := by
  refine ⟨fun a s e => dividends_filter_sum a s e, ?_, ?_⟩
  · intro a s e h
    rw [dividends_filter_sum, h]
    rfl
  · intro a months hd hp
    obtain ⟨sp, hsp⟩ := start_price_some hp months
    obtain ⟨ep, hep⟩ := end_price_some hp
    have hz : get_dividends_in_period a (resolved_start_date a months)
        (resolved_end_date a) = 0 := by
      rw [dividends_filter_sum, hd]
      rfl
    rw [calculate_metrics_full a months hp sp ep hsp hep]
    refine ⟨?_, ?_, rfl, rfl, rfl, rfl, rfl, rfl, rfl, rfl, rfl, rfl, rfl, rfl⟩
    · simp [hz, round2]
    · simp [hz, round2]

/-- Witness for C5: empty dividend series with a two-bar price series. -/
theorem C5_dividends_in_range_witness :
    (calculate_metrics (_prepare_data [⟨20 * msPerDay, 100⟩, ⟨200 * msPerDay, 110⟩] []) 6).total_dividends
      = some 0 :=
  (C5_dividends_in_range.2.2
    (_prepare_data [⟨20 * msPerDay, 100⟩, ⟨200 * msPerDay, 110⟩] []) 6
    (by decide) (by decide)).1

lemma dividends_sum_split (l : List DivEvent) (s m e : Int)
    (h1 : s - 1 ≤ m) (h2 : m ≤ e) :
    ((l.filter fun d => decide (s ≤ d.date ∧ d.date ≤ m)).map fun d => d.cash_amount).sum
      + ((l.filter fun d => decide (m + 1 ≤ d.date ∧ d.date ≤ e)).map fun d => d.cash_amount).sum
      = ((l.filter fun d => decide (s ≤ d.date ∧ d.date ≤ e)).map fun d => d.cash_amount).sum := by
  induction l with
  | nil => simp
  | cons x t ih =>
    simp only [List.filter_cons]
    by_cases hA : s ≤ x.date ∧ x.date ≤ m
    · have hB : ¬(m + 1 ≤ x.date ∧ x.date ≤ e) := by omega
      have hC : s ≤ x.date ∧ x.date ≤ e := by omega
      rw [if_pos (by simpa using hA), if_neg (by simpa using hB),
        if_pos (by simpa using hC)]
      simp only [List.map_cons, List.sum_cons]
      rw [add_assoc, ih]
    · by_cases hB : m + 1 ≤ x.date ∧ x.date ≤ e
      · have hC : s ≤ x.date ∧ x.date ≤ e := by omega
        rw [if_neg (by simpa using hA), if_pos (by simpa using hB),
          if_pos (by simpa using hC)]
        simp only [List.map_cons, List.sum_cons]
        rw [← ih]
        ring
      · have hC : ¬(s ≤ x.date ∧ x.date ≤ e) := by omega
        rw [if_neg (by simpa using hA), if_neg (by simpa using hB),
          if_neg (by simpa using hC)]
        exact ih

lemma get_dividends_split (a : DividendAnalyzer) (s m e : Int)
    (h1 : s - 1 ≤ m) (h2 : m ≤ e) :
    get_dividends_in_period a s m + get_dividends_in_period a (m + 1) e
      = get_dividends_in_period a s e := by
  simp only [dividends_filter_sum]
  exact dividends_sum_split a.dividends_df s m e h1 h2

/-- C8: `get_dividends_in_period` is additive over every partition of an
inclusive range into disjoint adjacent sub-ranges. -/
theorem C8_dividends_additive (a : DividendAnalyzer) (rs : List (Int × Int))
    (s e : Int) (hc : coversRange s e rs) :
    (rs.map fun r => get_dividends_in_period a r.1 r.2).sum
      = get_dividends_in_period a s e := by
  induction rs generalizing s e with
  | nil =>
    simp only [coversRange] at hc
  | cons r rest ih =>
    cases rest with
    | nil =>
      simp only [coversRange] at hc
      obtain ⟨h1, h2⟩ := hc
      simp only [List.map_cons, List.map_nil, List.sum_cons, List.sum_nil, add_zero]
      rw [h1, h2]
    | cons r2 rest2 =>
      simp only [coversRange] at hc
      obtain ⟨h1, hge, hle, hcov⟩ := hc
      simp only [List.map_cons, List.sum_cons] at ih ⊢
      rw [ih (r.2 + 1) e hcov, h1]
      exact get_dividends_split a s r.2 e hge hle

/-- Witness for C8: a two-piece partition of `[0, 25]`. -/
theorem C8_dividends_additive_witness :
    ([((0 : Int), (10 : Int)), ((11 : Int), (25 : Int))].map fun r =>
        get_dividends_in_period ⟨[], [⟨5, 2⟩, ⟨15, 3⟩, ⟨30, 7⟩]⟩ r.1 r.2).sum
      = get_dividends_in_period ⟨[], [⟨5, 2⟩, ⟨15, 3⟩, ⟨30, 7⟩]⟩ 0 25 :=
  C8_dividends_additive ⟨[], [⟨5, 2⟩, ⟨15, 3⟩, ⟨30, 7⟩]⟩ _ 0 25
    (⟨by decide, by decide, by decide, by decide, by decide⟩)

lemma zip_tail_ne_nil {L : List Int} (h : 2 ≤ L.length) : L.zip L.tail ≠ [] := by
  cases L with
  | nil => simp at h
  | cons a t =>
    cases t with
    | nil => simp at h
    | cons b t2 => simp [List.zip]

/-- C3: `get_dividend_frequency` computes exactly the classification described
by the specification: restrict to events in the trailing 365 days of the
analysis time `now`, return UNKNOWN (`""`) below two events in the window,
otherwise classify the arithmetic mean of the day-gaps of the sorted event
dates with inclusive thresholds 10 (`"W"`), 35 (`"M"`), 110 (`"Q"`); and the
concrete scenario of events at day-gaps `[28, 31, 29]` inside the trailing
year is classified `"M"`. -/
theorem C3_frequency_classification :
    (∀ (a : DividendAnalyzer) (now : Int),
      get_dividend_frequency a now =
        classify_frequency_spec (a.dividends_df.map fun d => d.date) now)
    ∧ get_dividend_frequency
        ⟨[], [⟨100 * msPerDay, 1⟩, ⟨128 * msPerDay, 1⟩, ⟨159 * msPerDay, 1⟩,
          ⟨188 * msPerDay, 1⟩]⟩ (200 * msPerDay) = "M" := by
  constructor
  · intro a now
    simp only [get_dividend_frequency, classify_frequency_spec, List.isEmpty_iff]
    rw [List.filter_map]
    simp only [Function.comp_def, List.length_map]
    rcases Nat.lt_or_ge
      (List.filter (fun d => decide (now - 365 * msPerDay ≤ d.date)) a.dividends_df).length 2
      with h2 | h2
    · rw [if_pos h2, if_pos h2]
      simp
    · have hdf2 : 2 ≤ a.dividends_df.length :=
        le_trans h2 (List.length_filter_le _ _)
      have hc1 : ¬(a.dividends_df = [] ∨ a.dividends_df.length < 2) := by
        rintro (h | h)
        · rw [h] at hdf2
          simp at hdf2
        · omega
      have h2n := Nat.not_lt.mpr h2
      rw [if_neg hc1, if_neg h2n, if_neg h2n]
      have hL : 2 ≤ (List.insertionSort (· ≤ ·)
          (List.map (fun d => d.date)
            (List.filter (fun d => decide (now - 365 * msPerDay ≤ d.date))
              a.dividends_df))).length := by
        rw [List.length_insertionSort, List.length_map]
        exact h2
      have hmap := zip_tail_ne_nil hL
      rw [if_neg (by simpa [List.map_eq_nil_iff] using hmap)]
  · simp only [get_dividend_frequency, msPerDay]
    norm_num [List.filter, List.insertionSort, List.orderedInsert, List.zip,
      List.zipWith, Int.fdiv_eq_ediv]

lemma strftimeDay_mono {s t : Int} (h : s ≤ t) : strftimeDay s ≤ strftimeDay t := by
  unfold strftimeDay
  rw [Int.fdiv_eq_ediv s (by norm_num [msPerDay]),
    Int.fdiv_eq_ediv t (by norm_num [msPerDay])]
  exact Int.ediv_le_ediv (by norm_num [msPerDay]) h

/-- C7: on a non-empty price series, `get_price_history` returns exactly the
bars whose date is at or after the unclamped target start
`end_date - months*30 days` (not the clamped start used by
`calculate_metrics`), as ascending `(formatted date, close)` pairs. -/
theorem C7_price_history (a : DividendAnalyzer) (months : Int)
    (h : a.prices_df ≠ []) :
    get_price_history a months =
      (a.prices_df.filter fun p => decide (resolved_target_start a months ≤ p.date)).map
        (fun p => (strftimeDay p.date, p.c))
    ∧ (List.Sorted priceLE a.prices_df →
        List.Sorted (fun x y : Int × ℚ => x.1 ≤ y.1) (get_price_history a months)) := by
  have h1 : get_price_history a months =
      (a.prices_df.filter fun p => decide (resolved_target_start a months ≤ p.date)).map
        (fun p => (strftimeDay p.date, p.c)) := by
    simp only [get_price_history, List.isEmpty_iff, if_neg h, resolved_target_start,
      resolved_end_date]
  refine ⟨h1, ?_⟩
  intro hs
  rw [h1]
  exact List.Pairwise.map _ (fun p q hpq => strftimeDay_mono hpq) (hs.filter _)

/-- Witness for C7: the projected history of a concrete two-bar series is
ascending. -/
theorem C7_price_history_witness :
    List.Sorted (fun x y : Int × ℚ => x.1 ≤ y.1)
      (get_price_history (_prepare_data [⟨20 * msPerDay, 100⟩, ⟨200 * msPerDay, 110⟩] []) 12) :=
  (C7_price_history (_prepare_data [⟨20 * msPerDay, 100⟩, ⟨200 * msPerDay, 110⟩] []) 12
    (by decide)).2 (prepare_prices_sorted _ _)

/-- Counterexample to C9 as stated: a raw price bar whose epoch-millisecond
timestamp falls at 01:00 (t = 3600000) is stored with `date = 3600000`, which
is not a multiple of `msPerDay` — the store keeps a residual time-of-day
component instead of normalizing the price timestamp to a calendar date. -/
theorem C9_counterexample :
    (_prepare_data [⟨3600000, 100⟩] []).prices_df = [⟨3600000, 100⟩]
    ∧ ¬((3600000 : Int) % msPerDay = 0) := by
  constructor
  · rfl
  · decide

/-- C9 amended: the store keeps each price bar's converted timestamp exactly
(`pd.to_datetime(t, unit='ms')` preserves any time-of-day component), converts
each dividend ISO date string to a midnight timestamp (these have no
time-of-day component), and stores each collection sorted ascending by date as
a permutation of the converted records. -/
theorem C9_store_normalization (prices : List RawPrice) (dividends : List RawDividend) :
    ((_prepare_data prices dividends).prices_df.Perm
      (prices.map fun r => { date := r.t, c := r.c }))
    ∧ List.Sorted priceLE (_prepare_data prices dividends).prices_df
    ∧ ((_prepare_data prices dividends).dividends_df.Perm
      (dividends.map fun r =>
        { date := r.ex_dividend_date * msPerDay, cash_amount := r.cash_amount }))
    ∧ List.Sorted divLE (_prepare_data prices dividends).dividends_df
    ∧ (∀ d ∈ (_prepare_data prices dividends).dividends_df, d.date % msPerDay = 0) := by
  refine ⟨List.perm_insertionSort _ _, prepare_prices_sorted _ _,
    List.perm_insertionSort _ _, prepare_dividends_sorted _ _, ?_⟩
  intro d hd
  have hd2 := (List.perm_insertionSort divLE _).mem_iff.mp hd
  rcases List.mem_map.mp hd2 with ⟨r, hr, rfl⟩
  exact Int.mul_emod_left _ _

end DividendHistory
